import Mathlib

/-!
Verification of the uniform-detection server core (`src/app.js`).

The development shallowly embeds the detection pipeline of the Express
application: the decision rule of the `/detect-image` route
(`maxIdx`/`label`/`confidence`, app.js lines 293-295), the detection event
constructed by `Detection.create` (lines 297-304), the tensor bookkeeping of
the preprocessing/inference chain (lines 283-306), the model loader IIFE and
its `!model` guard (lines 261-279), the latest-per-subject aggregation
pipeline (`$sort createdAt desc` + `$group`/`$first`, lines 184-198 and
211-223), and the CSV report serialization (lines 225-246).

JavaScript numbers appearing as probabilities are modelled as rationals
(`ℚ`); `undefined` results of out-of-range indexing are modelled as `none`;
MongoDB ObjectIds are modelled as `Nat`; `Date` timestamps as `Nat`.
-/

/- ===================== Decision rule (app.js 291-295) ===================== -/

/-- `Math.max` of two numbers: the larger argument. -/
def jsMax (a b : ℚ) : ℚ := if a < b then b else a

/-- `Math.max(...data)` for a spread argument list: `none` models the
`-Infinity` returned for an empty spread, otherwise the maximum entry. -/
def jsMathMax : List ℚ → Option ℚ
  | [] => none
  | x :: xs => some (xs.foldl jsMax x)

/-- First index of `v` in the list, as `Array.prototype.indexOf` scans. -/
def jsFindIdxAux (v : ℚ) : List ℚ → Option Nat
  | [] => none
  | x :: xs => if x = v then some 0 else (jsFindIdxAux v xs).map (· + 1)

/-- `data.indexOf(x)`: `-1` when the value is absent (in particular when the
sought value is the `-Infinity` produced by an empty `Math.max` spread, which
no element equals), otherwise the lowest matching index. -/
def jsIndexOf (l : List ℚ) : Option ℚ → Int
  | none => -1
  | some v =>
    match jsFindIdxAux v l with
    | some i => (i : Int)
    | none => -1

/-- `const maxIdx = data.indexOf(Math.max(...data))` (app.js line 293). -/
def maxIdx (data : List ℚ) : Int := jsIndexOf data (jsMathMax data)

/-- JavaScript array indexing `data[i]`: `undefined` (`none`) for a negative
or out-of-range index. -/
def jsIndexGet (l : List ℚ) (i : Int) : Option ℚ :=
  if i < 0 then none else l.get? i.toNat

/-- The decision rule of the route (app.js lines 293-295): label from
`maxIdx === 0`, confidence `data[maxIdx]` unmodified. -/
def decideRule (data : List ℚ) : String × Option ℚ :=
  (if maxIdx data = 0 then "uniform" else "not-uniform",
   jsIndexGet data (maxIdx data))

/- ===================== Detection events ===================== -/

/-- One stored detection document (fields of `Detection.create`,
app.js lines 297-304, plus the `createdAt` timestamp the store assigns). -/
structure DetectionEvent where
  user : Nat
  username : String
  label : String
  confidence : Option ℚ
  isCompliant : Bool
  source : String
  createdAt : Nat
  deriving DecidableEq

/-- The document built by the `/detect-image` route from the prediction data
(app.js lines 293-304): argmax label, raw confidence, denormalized
`isCompliant: label === "uniform"`. `createdAt` is the append timestamp.
The timestamp assignment itself is modelled from the spec: the Detection Log
(`models/detection`) is not under `src/`, and §4.5 states that `append`
assigns `createdAt` and stores the draft unchanged. -/
def mkDetectionEvent (userId : Nat) (uname : String) (data : List ℚ)
    (now : Nat) : DetectionEvent :=
  let i := maxIdx data
  let lbl := if i = 0 then "uniform" else "not-uniform"
  ⟨userId, uname, lbl, jsIndexGet data i, lbl == "uniform", "upload", now⟩

/- ===================== Latest-status aggregation (app.js 184-198, 211-223) = -/

/-- One step of a stable descending sort on `createdAt`: the new element is
placed after every already-sorted element with a strictly greater key and
before the first element whose key is not greater, so elements with equal
keys keep their relative storage order. -/
def insertDesc (e : DetectionEvent) : List DetectionEvent → List DetectionEvent
  | [] => [e]
  | x :: xs =>
    if e.createdAt < x.createdAt then x :: insertDesc e xs else e :: x :: xs

/-- The `$sort: { createdAt: -1 }` stage of the aggregation pipeline, read as
a stable sort over the collection's storage (insertion) order. -/
def sortByCreatedAtDesc : List DetectionEvent → List DetectionEvent
  | [] => []
  | x :: xs => insertDesc x (sortByCreatedAtDesc xs)

/-- The `$group: { _id: "$user", ... $first ... }` stage followed by the
per-student lookup in `uniformMap` (app.js lines 187-198): for one subject,
the first event of the sorted stream belonging to that subject, absent when
the subject has no events. -/
def latestPerSubject (log : List DetectionEvent) (subject : Nat) :
    Option DetectionEvent :=
  (sortByCreatedAtDesc log).find? (fun e => e.user == subject)

/-- The two fields the `$group` stage projects out of the winning event:
`lastIsCompliant: { $first: "$isCompliant" }`, `lastAt: { $first: "$createdAt" }`. -/
structure AggEntry where
  lastIsCompliant : Bool
  lastAt : Nat
  deriving DecidableEq

/-- The aggregation result exposed to the dashboard and the export route. -/
def aggregateFor (log : List DetectionEvent) (subject : Nat) : Option AggEntry :=
  (latestPerSubject log subject).map (fun e => ⟨e.isCompliant, e.createdAt⟩)

/- ===================== Report projection and CSV (app.js 208-246) ========= -/

/-- A student record as the export route reads it (`User.find` fields used
on line 236). -/
structure Student where
  id : Nat
  username : String
  email : String
  department : String
  year : String
  division : String
  deriving DecidableEq

/-- `info ? (info.lastIsCompliant ? "Uniform OK" : "Not in Uniform") : "No Data"`
(app.js lines 230-234). -/
def uniformStatus : Option AggEntry → String
  | some i => if i.lastIsCompliant then "Uniform OK" else "Not in Uniform"
  | none => "No Data"

/-- The row sequence produced by `students.forEach` (app.js lines 228-237):
one `(student, status)` row per student, in the given student order. -/
def projectRows (students : List Student) (statuses : Nat → Option AggEntry) :
    List (Student × String) :=
  students.map (fun s => (s, uniformStatus (statuses s.id)))

/-- `"${info?.lastAt || ""}"`: empty string when the aggregate is absent,
otherwise the timestamp rendered as text. -/
def lastAtText : Option AggEntry → String
  | some i => toString i.lastAt
  | none => ""

/-- One CSV data line as the template literal of app.js line 236 builds it:
each field value interpolated between bare double quotes, fields joined by
commas, terminated by a newline. No escaping is applied to the values. -/
def csvRowFields (s : Student) (status : String) (lastAt : String) : String :=
  "\"" ++ s.username ++ "\",\"" ++ s.email ++ "\",\"" ++ s.department ++
    "\",\"" ++ s.year ++ "\",\"" ++ s.division ++ "\",\"" ++ status ++
    "\",\"" ++ lastAt ++ "\"\n"

/-- The fixed header line of the export (app.js lines 225-226). -/
def csvHeader : String :=
  "Username,Email,Department,Year,Division,Uniform Status,Last Checked\n"

/-- The body of the `/teacher/students/export` route (app.js lines 208-246):
header, then one serialized row per student in query order, each row's status
and timestamp looked up in the aggregation result. -/
def exportCsvRoute (students : List Student) (log : List DetectionEvent) :
    String :=
  students.foldl
    (fun csv s =>
      let info := aggregateFor log s.id
      csv ++ csvRowFields s (uniformStatus info) (lastAtText info))
    csvHeader

/- ===================== CSV well-formedness reference ===================== -/

/-- Reference reader for the inside of one standard CSV quoted field (RFC
4180): a doubled quote is an escaped quote character, a single quote closes
the field. Returns the decoded field and the unconsumed remainder, `none` if
the closing quote is missing. This is the well-formedness yardstick the spec
appeals to; it is not part of the source. -/
def parseQuoted : List Char → Option (List Char × List Char)
  | [] => none
  | c :: rest =>
    if c = '"' then
      match rest with
      | c2 :: rest2 =>
        if c2 = '"' then (parseQuoted rest2).map (fun p => ('"' :: p.1, p.2))
        else some ([], rest)
      | [] => some ([], [])
    else (parseQuoted rest).map (fun p => (c :: p.1, p.2))

/-- Reference reader for one CSV record of fully quoted fields, fuelled by a
bound on the number of fields: a quoted field, then either end of input (an
optional final newline) or a comma and further fields. -/
def parseRowFuel : Nat → List Char → Option (List String)
  | 0, _ => none
  | Nat.succ n, cs =>
    match cs with
    | [] => none
    | c :: rest =>
      if c = '"' then
        match parseQuoted rest with
        | none => none
        | some (f, r) =>
          match r with
          | [] => some [String.mk f]
          | c2 :: r2 =>
            if c2 = '\n' ∧ r2 = [] then some [String.mk f]
            else if c2 = ',' then
              (parseRowFuel n r2).map (fun fs => String.mk f :: fs)
            else none
      else none

/-- Parse one serialized CSV data line back into its field values. -/
def parseCsvRow (s : String) : Option (List String) :=
  parseRowFuel (s.length + 1) s.data

/-- The char-level shape of one always-quoted CSV record:
`"f1","f2",...,"fn"`. -/
def quotedJoin : List (List Char) → List Char
  | [] => []
  | [f] => '"' :: (f ++ ['"'])
  | f :: fs => '"' :: (f ++ ['"', ','] ++ quotedJoin fs)

/- ===================== Model runtime and tensors (app.js 248-310) ========= -/

/-- Symbolic tensor expressions: each tfjs op applied in the preprocessing
chain of app.js lines 283-288 constructs a fresh tensor node. The pixel
arithmetic inside the ops lives in the tfjs runtime, not in the repository,
so the nodes are kept free; no claim depends on pixel values. -/
inductive Img
  | decoded (bytes : List Nat)
  | resized (src : Img) (h w : Nat)
  | expanded (src : Img)
  | floated (src : Img)
  | scal (v : ℚ)
  | divd (a b : Img)
  deriving DecidableEq

/-- The tensor handed to `model.predict`:
`tf.node.decodeImage(buffer,3).resizeNearestNeighbor([224,224]).expandDims().toFloat().div(tf.scalar(255))`. -/
def imgOf (bytes : List Nat) : Img :=
  .divd (.floated (.expanded (.resized (.decoded bytes) 224 224))) (.scal 255)

/-- A loaded classifier handle: `model.predict(tensor)` followed by
`preds.dataSync()` yields the probability vector. -/
structure Model where
  predictFn : Img → List ℚ

/-- First bytes of the formats `tf.node.decodeImage` accepts (JPEG). -/
def hasJpegMagic : List Nat → Bool
  | a :: b :: _ => a == 0xFF && b == 0xD8
  | _ => false

/-- PNG signature prefix. -/
def hasPngMagic : List Nat → Bool
  | a :: b :: c :: d :: _ => a == 0x89 && b == 0x50 && c == 0x4E && d == 0x47
  | _ => false

/-- GIF signature prefix. -/
def hasGifMagic : List Nat → Bool
  | a :: b :: c :: _ => a == 0x47 && b == 0x49 && c == 0x46
  | _ => false

/-- BMP signature prefix. -/
def hasBmpMagic : List Nat → Bool
  | a :: b :: _ => a == 0x42 && b == 0x4D
  | _ => false

/-- `tf.node.decodeImage` decodes only BMP/GIF/JPEG/PNG streams and throws on
anything else — in particular on an empty byte stream, which matches no
signature. -/
def isDecodableImage (bytes : List Nat) : Bool :=
  hasJpegMagic bytes || hasPngMagic bytes || hasGifMagic bytes ||
    hasBmpMagic bytes

/-- A minimal well-formed image byte stream (a PNG signature prefix). -/
def pngBytes : List Nat := [0x89, 0x50, 0x4E, 0x47]

/-- Exceptions a `/detect-image` request can raise; the route has no
try/catch, so a raised error escapes the handler. -/
inductive JsError
  | decodeError
  | storageError
  deriving DecidableEq

/-- The responses the modelled routes can send. -/
inductive HttpResponse
  | jsonError (status : Nat) (msg : String)
  | jsonResult (label : String) (confidence : Option ℚ)
  | csvFile (body : String)
  deriving DecidableEq

/-- tfjs-node memory bookkeeping: tensors allocated by ops, in allocation
order, stay live until explicitly passed to `tf.dispose`. -/
structure TfState where
  allocated : List Nat
  nextId : Nat
  deriving DecidableEq

/-- The empty tensor environment at the start of a request. -/
def tfInit : TfState := ⟨[], 0⟩

/-- Allocate one fresh tensor id (one tfjs op application). -/
def TfState.alloc (s : TfState) : Nat × TfState :=
  (s.nextId, ⟨s.allocated ++ [s.nextId], s.nextId + 1⟩)

/-- `tf.dispose([...])`: release exactly the listed tensors. -/
def TfState.disposeIds (s : TfState) (ids : List Nat) : TfState :=
  ⟨s.allocated.filter (fun i => !(ids.contains i)), s.nextId⟩

deriving instance DecidableEq for Except

/-- Outcome of one `/detect-image` request: the handler's response or the
error that escaped it (the route has no try/catch), the detection log after
the request, and the tensors still allocated. -/
structure RunResult where
  outcome : Except JsError HttpResponse
  log : List DetectionEvent
  tf : TfState
  deriving DecidableEq

/-- The `/detect-image` route body (app.js lines 274-310).

* `if (!model) return res.status(500).json({ error: "Model not ready" })`;
* the preprocessing chain allocates one tensor per op (`decodeImage`,
  `resizeNearestNeighbor`, `expandDims`, `toFloat`, `tf.scalar(255)`,
  `div`), `decodeImage` throwing on a non-image stream;
* `model.predict` allocates the prediction tensor;
* the decision rule computes `label`/`confidence` (lines 293-295);
* `Detection.create` appends the event (`createOk = false` models a
  rejected insert, which propagates uncaught);
* only then does `tf.dispose([tensor, preds])` run. -/
def detectImageHandler (model : Option Model) (bytes : List Nat) (uid : Nat)
    (uname : String) (now : Nat) (createOk : Bool)
    (log : List DetectionEvent) : RunResult :=
  match model with
  | none => ⟨.ok (.jsonError 500 "Model not ready"), log, tfInit⟩
  | some m =>
    if isDecodableImage bytes then
      let (_t0, s0) := tfInit.alloc
      let (_t1, s1) := s0.alloc
      let (_t2, s2) := s1.alloc
      let (_t3, s3) := s2.alloc
      let (_t4, s4) := s3.alloc
      let (t5, s5) := s4.alloc
      let (t6, s6) := s5.alloc
      let data := m.predictFn (imgOf bytes)
      let ev := mkDetectionEvent uid uname data now
      if createOk then
        ⟨.ok (.jsonResult ev.label ev.confidence), log ++ [ev],
          s6.disposeIds [t5, t6]⟩
      else ⟨.error .storageError, log, s6⟩
    else ⟨.error .decodeError, log, tfInit⟩

/-- The loader IIFE (app.js lines 261-271): `model` starts as `null`, is
assigned the handle on a successful `tf.loadLayersModel`, and is left `null`
by the `catch` branch on a failed load. Nothing else ever assigns `model`. -/
def modelAfterLoad : Except String Model → Option Model
  | .ok m => some m
  | .error _ => none

/-- The requests relevant to the core: a classification upload and the
report export. -/
inductive Request
  | detectImage (bytes : List Nat) (userId : Nat) (username : String)
      (createOk : Bool)
  | exportReport

/-- Server state threaded between requests: the (never reassigned) model
variable, the student collection, the detection log, and the clock used for
`createdAt` assignment. -/
structure ServerState where
  model : Option Model
  students : List Student
  log : List DetectionEvent
  now : Nat

/-- Dispatch of one request. A detection request runs the `/detect-image`
handler; the model variable is passed through untouched, since no route
assigns it. The export request runs the CSV route, which never touches the
model. -/
def serverStep (st : ServerState) : Request → ServerState × Except JsError HttpResponse
  | .detectImage bytes uid uname createOk =>
    let r := detectImageHandler st.model bytes uid uname st.now createOk st.log
    (⟨st.model, st.students, r.log, st.now + 1⟩, r.outcome)
  | .exportReport =>
    (st, .ok (.csvFile (exportCsvRoute st.students st.log)))

/-- Run a whole sequence of requests, collecting the responses. -/
def runRequests (st : ServerState) : List Request → ServerState × List (Except JsError HttpResponse)
  | [] => (st, [])
  | r :: rs =>
    let p := serverStep st r
    let q := runRequests p.1 rs
    (q.1, p.2 :: q.2)

/- ===================== Helper lemmas: argmax ===================== -/

/-- The left argument bounds into `jsMax`. -/
theorem le_jsMax_left (a b : ℚ) : a ≤ jsMax a b := by
  unfold jsMax
  split
  · exact le_of_lt (by assumption)
  · exact le_refl a

/-- The right argument bounds into `jsMax`. -/
theorem le_jsMax_right (a b : ℚ) : b ≤ jsMax a b := by
  unfold jsMax
  split
  · exact le_refl b
  · exact le_of_not_lt (by assumption)

/-- `jsMax` returns one of its arguments. -/
theorem jsMax_choice (a b : ℚ) : jsMax a b = a ∨ jsMax a b = b := by
  unfold jsMax
  split
  · exact Or.inr rfl
  · exact Or.inl rfl

/-- The seed of a `jsMax`-fold bounds the fold result. -/
theorem foldl_max_le_self (x : ℚ) (xs : List ℚ) : x ≤ xs.foldl jsMax x := by
  induction xs generalizing x with
  | nil => exact le_refl x
  | cons y ys ih =>
    exact le_trans (le_jsMax_left x y) (ih (jsMax x y))

/-- Every list element bounds into a `jsMax`-fold over the list. -/
theorem le_foldl_max_of_mem {y : ℚ} {xs : List ℚ} (x : ℚ) (h : y ∈ xs) :
    y ≤ xs.foldl jsMax x := by
  induction xs generalizing x with
  | nil => cases h
  | cons z zs ih =>
    rcases List.mem_cons.mp h with rfl | h'
    · exact le_trans (le_jsMax_right x y) (foldl_max_le_self _ zs)
    · exact ih _ h'

/-- A `jsMax`-fold is attained: it equals the seed or some list element. -/
theorem foldl_max_mem (x : ℚ) (xs : List ℚ) :
    xs.foldl jsMax x = x ∨ xs.foldl jsMax x ∈ xs := by
  induction xs generalizing x with
  | nil => exact Or.inl rfl
  | cons y ys ih =>
    have hstep : List.foldl jsMax x (y :: ys) = List.foldl jsMax (jsMax x y) ys := rfl
    rcases ih (jsMax x y) with h | h
    · rcases jsMax_choice x y with hx | hy
      · exact Or.inl (by rw [hstep, h, hx])
      · exact Or.inr (by rw [hstep, h, hy]; exact List.mem_cons_self y ys)
    · exact Or.inr (List.mem_cons_of_mem _ (hstep ▸ h))

/-- `indexOf` finds a present value. -/
theorem jsFindIdxAux_of_mem {v : ℚ} {l : List ℚ} (h : v ∈ l) :
    ∃ i, jsFindIdxAux v l = some i := by
  induction l with
  | nil => cases h
  | cons x xs ih =>
    by_cases hx : x = v
    · exact ⟨0, by simp [jsFindIdxAux, hx]⟩
    · have hv : v ∈ xs := by
        rcases List.mem_cons.mp h with h1 | h1
        · exact absurd h1.symm hx
        · exact h1
      rcases ih hv with ⟨i, hi⟩
      exact ⟨i + 1, by simp [jsFindIdxAux, hx, hi]⟩

/-- The element at the index `indexOf` returns is the sought value. -/
theorem jsFindIdxAux_get {v : ℚ} {l : List ℚ} {i : Nat}
    (h : jsFindIdxAux v l = some i) : l.get? i = some v := by
  induction l generalizing i with
  | nil => simp [jsFindIdxAux] at h
  | cons x xs ih =>
    by_cases hx : x = v
    · simp [jsFindIdxAux, hx] at h
      subst h
      simp [hx]
    · simp [jsFindIdxAux, hx] at h
      rcases h with ⟨j, hj, rfl⟩
      simpa using ih hj

/-- `indexOf` returns the lowest matching index: no earlier position holds
the sought value. -/
theorem jsFindIdxAux_min {v : ℚ} {l : List ℚ} {i : Nat}
    (h : jsFindIdxAux v l = some i) :
    ∀ j, j < i → l.get? j ≠ some v := by
  induction l generalizing i with
  | nil => simp [jsFindIdxAux] at h
  | cons x xs ih =>
    by_cases hx : x = v
    · simp [jsFindIdxAux, hx] at h
      subst h
      intro j hj
      exact absurd hj (Nat.not_lt_zero j)
    · simp [jsFindIdxAux, hx] at h
      rcases h with ⟨k, hk, rfl⟩
      intro j hj
      cases j with
      | zero => simpa using fun hxv => hx hxv
      | succ j' =>
        have := ih hk j' (Nat.lt_of_succ_lt_succ hj)
        simpa using this

/- ===================== C2 ===================== -/

/-- C2: for every non-empty probability vector the decision rule picks the
index of the maximum entry; among equal maxima it picks the lowest such
index deterministically; the returned confidence is the probability at the
chosen index, unmodified; and `decide([0.5, 0.5])` yields index 0's label
("uniform"), never index 1's. -/
theorem decideRule_argmax_lowest_index (data : List ℚ) (hne : data ≠ []) :
    (∃ i : Nat, ∃ v : ℚ,
      maxIdx data = (i : Int) ∧
      data.get? i = some v ∧
      (∀ x ∈ data, x ≤ v) ∧
      (∀ j, j < i → data.get? j ≠ some v) ∧
      (decideRule data).2 = some v) ∧
    decideRule [(1 : ℚ)/2, 1/2] = ("uniform", some ((1 : ℚ)/2)) := by
  constructor
  · cases data with
    | nil => exact absurd rfl hne
    | cons x xs =>
      have hmax : jsMathMax (x :: xs) = some (xs.foldl jsMax x) := rfl
      have hmem : xs.foldl jsMax x ∈ x :: xs := by
        rcases foldl_max_mem x xs with h | h
        · rw [h]; exact List.mem_cons_self x xs
        · exact List.mem_cons_of_mem x h
      rcases jsFindIdxAux_of_mem hmem with ⟨i, hfind⟩
      have hidx : maxIdx (x :: xs) = (i : Int) := by
        simp [maxIdx, hmax, jsIndexOf, hfind]
      refine ⟨i, xs.foldl jsMax x, hidx, jsFindIdxAux_get hfind, ?_,
        jsFindIdxAux_min hfind, ?_⟩
      · intro y hy
        rcases List.mem_cons.mp hy with rfl | hy'
        · exact foldl_max_le_self y xs
        · exact le_foldl_max_of_mem x hy'
      · have hnonneg : ¬((i : Int) < 0) := by omega
        have htn : ((i : Int)).toNat = i := by omega
        have hval := jsFindIdxAux_get hfind
        simp only [decideRule, hidx, jsIndexGet, hnonneg, if_false, htn]
        simpa using hval
  · simp [decideRule, maxIdx, jsMathMax, jsMax, jsFindIdxAux, jsIndexOf,
      jsIndexGet]

/-- Witness for C2 at the concrete vector `[0.3, 0.7]`. -/
theorem decideRule_argmax_lowest_index_witness :
    (∃ i : Nat, ∃ v : ℚ,
      maxIdx [(3 : ℚ)/10, 7/10] = (i : Int) ∧
      ([(3 : ℚ)/10, 7/10].get? i = some v) ∧
      (∀ x ∈ [(3 : ℚ)/10, 7/10], x ≤ v) ∧
      (∀ j, j < i → [(3 : ℚ)/10, 7/10].get? j ≠ some v) ∧
      (decideRule [(3 : ℚ)/10, 7/10]).2 = some v) ∧
    decideRule [(1 : ℚ)/2, 1/2] = ("uniform", some ((1 : ℚ)/2)) :=
  decideRule_argmax_lowest_index [(3 : ℚ)/10, 7/10] (by decide)

/- ===================== Helper lemmas: aggregation ===================== -/

/-- Membership is preserved by one stable-insertion step. -/
theorem mem_insertDesc {a e : DetectionEvent} {l : List DetectionEvent} :
    a ∈ insertDesc e l ↔ a = e ∨ a ∈ l := by
  induction l with
  | nil => simp [insertDesc]
  | cons x xs ih =>
    simp only [insertDesc]
    split
    · simp only [List.mem_cons, ih]
      tauto
    · simp only [List.mem_cons]

/-- The `$sort` stage permutes the log: membership is unchanged. -/
theorem mem_sortDesc {a : DetectionEvent} {l : List DetectionEvent} :
    a ∈ sortByCreatedAtDesc l ↔ a ∈ l := by
  induction l with
  | nil => simp [sortByCreatedAtDesc]
  | cons x xs ih =>
    simp [sortByCreatedAtDesc, mem_insertDesc, ih]

/-- Stable insertion preserves descending sortedness on `createdAt`. -/
theorem pairwise_insertDesc {e : DetectionEvent} {l : List DetectionEvent}
    (h : l.Pairwise (fun a b => b.createdAt ≤ a.createdAt)) :
    (insertDesc e l).Pairwise (fun a b => b.createdAt ≤ a.createdAt) := by
  induction l with
  | nil => simp [insertDesc]
  | cons x xs ih =>
    rcases List.pairwise_cons.mp h with ⟨hx, hxs⟩
    simp only [insertDesc]
    split
    · rename_i hlt
      refine List.pairwise_cons.mpr ⟨?_, ih hxs⟩
      intro b hb
      rcases mem_insertDesc.mp hb with rfl | hb'
      · exact le_of_lt hlt
      · exact hx b hb'
    · rename_i hge
      refine List.pairwise_cons.mpr ⟨?_, h⟩
      intro b hb
      rcases List.mem_cons.mp hb with rfl | hb'
      · exact le_of_not_lt hge
      · exact le_trans (hx b hb') (le_of_not_lt hge)

/-- The output of the `$sort` stage is descending on `createdAt`. -/
theorem pairwise_sortDesc (l : List DetectionEvent) :
    (sortByCreatedAtDesc l).Pairwise (fun a b => b.createdAt ≤ a.createdAt) := by
  induction l with
  | nil => simp [sortByCreatedAtDesc]
  | cons x xs ih => exact pairwise_insertDesc ih

/-- In a descending-sorted list, the first match of a predicate has a
`createdAt` at least that of every other match. -/
theorem find?_first_createdAt {p : DetectionEvent → Bool}
    {l : List DetectionEvent} {x : DetectionEvent}
    (hp : l.Pairwise (fun a b => b.createdAt ≤ a.createdAt))
    (hf : l.find? p = some x) {y : DetectionEvent} (hy : y ∈ l)
    (hpy : p y = true) : x = y ∨ y.createdAt ≤ x.createdAt := by
  induction l with
  | nil => simp [List.find?] at hf
  | cons a l ih =>
    rcases List.pairwise_cons.mp hp with ⟨ha, hl⟩
    by_cases hpa : p a = true
    · have hxa : x = a := by
        have := List.find?_cons_of_pos l hpa
        rw [this] at hf
        exact (Option.some_inj.mp hf).symm
      rcases List.mem_cons.mp hy with rfl | hy'
      · exact Or.inl hxa
      · exact Or.inr (hxa ▸ ha y hy')
    · have hf' : l.find? p = some x := by
        have := List.find?_cons_of_neg l hpa
        rw [this] at hf
        exact hf
      rcases List.mem_cons.mp hy with rfl | hy'
      · exact absurd hpy hpa
      · exact ih hl hf' hy'

/- ===================== C1 ===================== -/

/-- C1: over any storage order of the detection log, a subject with zero
events is mapped to absent by `latestPerSubject`, and a subject whose
maximum `createdAt` is attained by a unique event is mapped exactly to that
event (so for events at t1 < t2 the aggregate is the t2 event), the
aggregate carrying that event's `isCompliant` and `createdAt`. -/
theorem latestPerSubject_absent_or_max (log : List DetectionEvent)
    (subject : Nat) :
    ((∀ e ∈ log, e.user ≠ subject) → latestPerSubject log subject = none) ∧
    (∀ e ∈ log, e.user = subject →
      (∀ f ∈ log, f.user = subject → f ≠ e → f.createdAt < e.createdAt) →
      latestPerSubject log subject = some e ∧
      aggregateFor log subject = some ⟨e.isCompliant, e.createdAt⟩) := by
  constructor
  · intro h
    unfold latestPerSubject
    apply List.find?_eq_none.mpr
    intro a ha
    simpa using h a (mem_sortDesc.mp ha)
  · intro e he hu hmaxu
    have hemem : e ∈ sortByCreatedAtDesc log := mem_sortDesc.mpr he
    have hpe : (fun f => f.user == subject) e = true := by simpa using hu
    have hsome :
        ∃ x, (sortByCreatedAtDesc log).find? (fun f => f.user == subject) =
          some x := by
      cases hcase : (sortByCreatedAtDesc log).find? (fun f => f.user == subject) with
      | none => exact absurd hpe (by simpa using List.find?_eq_none.mp hcase e hemem)
      | some x => exact ⟨x, rfl⟩
    rcases hsome with ⟨x, hx⟩
    have hxu : x.user = subject := by simpa using List.find?_some hx
    have hxmem : x ∈ log := mem_sortDesc.mp (List.mem_of_find?_eq_some hx)
    have hxe : x = e := by
      by_contra hne2
      have hlt : x.createdAt < e.createdAt := hmaxu x hxmem hxu hne2
      rcases find?_first_createdAt (pairwise_sortDesc log) hx hemem hpe with
        h1 | h2
      · exact hne2 h1
      · exact absurd hlt (not_lt.mpr h2)
    have hfinal : latestPerSubject log subject = some e := by
      unfold latestPerSubject
      rw [hx, hxe]
    exact ⟨hfinal, by simp [aggregateFor, hfinal]⟩

/-- Witness for C1: a subject with two events at times 10 < 20 aggregates to
the event at 20 and to an absent entry for a subject with no events. -/
theorem latestPerSubject_absent_or_max_witness :
    latestPerSubject
        [⟨7, "a", "uniform", some 1, true, "upload", 10⟩,
         ⟨7, "a", "not-uniform", some 1, false, "upload", 20⟩] 7 =
      some ⟨7, "a", "not-uniform", some 1, false, "upload", 20⟩ ∧
    aggregateFor
        [⟨7, "a", "uniform", some 1, true, "upload", 10⟩,
         ⟨7, "a", "not-uniform", some 1, false, "upload", 20⟩] 7 =
      some ⟨false, 20⟩ ∧
    latestPerSubject
        [⟨7, "a", "uniform", some 1, true, "upload", 10⟩,
         ⟨7, "a", "not-uniform", some 1, false, "upload", 20⟩] 9 = none := by
  refine ⟨?_, ?_, ?_⟩
  · exact ((latestPerSubject_absent_or_max
      [⟨7, "a", "uniform", some 1, true, "upload", 10⟩,
       ⟨7, "a", "not-uniform", some 1, false, "upload", 20⟩] 7).2
      ⟨7, "a", "not-uniform", some 1, false, "upload", 20⟩ (by decide)
      (by decide) (by decide)).1
  · exact ((latestPerSubject_absent_or_max
      [⟨7, "a", "uniform", some 1, true, "upload", 10⟩,
       ⟨7, "a", "not-uniform", some 1, false, "upload", 20⟩] 7).2
      ⟨7, "a", "not-uniform", some 1, false, "upload", 20⟩ (by decide)
      (by decide) (by decide)).2
  · exact (latestPerSubject_absent_or_max
      [⟨7, "a", "uniform", some 1, true, "upload", 10⟩,
       ⟨7, "a", "not-uniform", some 1, false, "upload", 20⟩] 9).1 (by decide)

/- ===================== C5 ===================== -/

/-- C5: when two events for one subject share the exact same `createdAt`,
the aggregation (whose only sort key is `createdAt`) resolves the tie in
favour of the event that entered the log FIRST under the stable reading of
the `$sort` stage — the most recently appended event does not win. The two
events are distinct, and the later-appended one is the second list entry. -/
theorem same_timestamp_tie_earliest_appended_wins :
    latestPerSubject
        [⟨3, "a", "uniform", some 1, true, "upload", 100⟩,
         ⟨3, "a", "not-uniform", some 1, false, "upload", 100⟩] 3 =
      some ⟨3, "a", "uniform", some 1, true, "upload", 100⟩ ∧
    latestPerSubject
        [⟨3, "a", "uniform", some 1, true, "upload", 100⟩,
         ⟨3, "a", "not-uniform", some 1, false, "upload", 100⟩] 3 ≠
      some ⟨3, "a", "not-uniform", some 1, false, "upload", 100⟩ ∧
    (⟨3, "a", "uniform", some 1, true, "upload", 100⟩ : DetectionEvent) ≠
      ⟨3, "a", "not-uniform", some 1, false, "upload", 100⟩ := by
  refine ⟨by decide, by decide, by decide⟩

/- ===================== C7 ===================== -/

/-- The event document the route builds always has `isCompliant` equal to
the test `label === "uniform"`. -/
theorem mkDetectionEvent_isCompliant (userId : Nat) (uname : String)
    (data : List ℚ) (now : Nat) :
    ((mkDetectionEvent userId uname data now).isCompliant = true) ↔
      (mkDetectionEvent userId uname data now).label = "uniform" := by
  unfold mkDetectionEvent
  by_cases h : maxIdx data = 0 <;> simp [h]

/-- C7: every detection event appended by the classification path satisfies
the denormalization invariant: `isCompliant` holds exactly when the label is
"uniform" (source domain of `compliant`); events in the resulting log are
either pre-existing or satisfy the invariant. -/
theorem appended_event_isCompliant_invariant (model : Option Model)
    (bytes : List Nat) (uid : Nat) (uname : String) (now : Nat)
    (createOk : Bool) (log : List DetectionEvent) (e : DetectionEvent)
    (he : e ∈ (detectImageHandler model bytes uid uname now createOk log).log) :
    e ∈ log ∨ ((e.isCompliant = true) ↔ e.label = "uniform") := by
  cases model with
  | none => exact Or.inl he
  | some m =>
    by_cases hd : isDecodableImage bytes
    · cases createOk with
      | true =>
        simp only [detectImageHandler, hd, if_true] at he
        rcases List.mem_append.mp he with h | h
        · exact Or.inl h
        · have : e = mkDetectionEvent uid uname (m.predictFn (imgOf bytes)) now := by
            simpa using h
          exact Or.inr (this ▸ mkDetectionEvent_isCompliant uid uname
            (m.predictFn (imgOf bytes)) now)
      | false =>
        simp only [detectImageHandler, hd, if_true] at he
        exact Or.inl he
    · simp only [detectImageHandler, if_neg hd] at he
      exact Or.inl he

/-- Witness for C7: a concrete upload whose appended event satisfies the
invariant. -/
theorem appended_event_isCompliant_invariant_witness :
    (⟨1, "u", "uniform", some 1, true, "upload", 5⟩ : DetectionEvent) ∈
        ([] : List DetectionEvent) ∨
      (((⟨1, "u", "uniform", some 1, true, "upload", 5⟩ : DetectionEvent).isCompliant = true) ↔
        (⟨1, "u", "uniform", some 1, true, "upload", 5⟩ : DetectionEvent).label = "uniform") :=
  appended_event_isCompliant_invariant (some ⟨fun _ => [1, 0]⟩) pngBytes 1 "u"
    5 true [] ⟨1, "u", "uniform", some 1, true, "upload", 5⟩ (by decide)

/- ===================== C8 ===================== -/

/-- C8: the report projection emits exactly one row per subject, in the
caller-given input order, whose status is "No Data" for an absent aggregate,
"Uniform OK" when `lastIsCompliant` is true and "Not in Uniform" when it is
false; on the cited two-subject example the rows come out as
["No Data", "Not in Uniform"] in that exact order. -/
theorem projectRows_one_row_per_subject_in_order
    (students : List Student) (statuses : Nat → Option AggEntry) :
    (projectRows students statuses).length = students.length ∧
    (∀ i : Nat, (projectRows students statuses)[i]? =
      (students[i]?).map (fun s => (s, uniformStatus (statuses s.id)))) ∧
    uniformStatus none = "No Data" ∧
    (∀ t : Nat, uniformStatus (some ⟨true, t⟩) = "Uniform OK") ∧
    (∀ t : Nat, uniformStatus (some ⟨false, t⟩) = "Not in Uniform") ∧
    projectRows
        [⟨1, "s1", "e1", "d", "y", "v"⟩, ⟨2, "s2", "e2", "d", "y", "v"⟩]
        (fun sid => if sid == 2 then some ⟨false, 5⟩ else none) =
      [(⟨1, "s1", "e1", "d", "y", "v"⟩, "No Data"),
       (⟨2, "s2", "e2", "d", "y", "v"⟩, "Not in Uniform")] := by
  refine ⟨by simp [projectRows], ?_, rfl, fun t => rfl, fun t => rfl,
    by decide⟩
  intro i
  simp [projectRows, List.getElem?_map]

/- ===================== C9 ===================== -/

/-- C9: the classification path does NOT release every temporary tensor on
every exit path. On the fully successful path the five preprocessing
intermediates (decode, resize, expandDims, toFloat, scalar) remain allocated
after the response — only the final normalized tensor and the prediction are
disposed — and when the event insert rejects, nothing at all is disposed. -/
theorem tensors_leak_on_exit (m : Model) (uid : Nat) (uname : String)
    (now : Nat) (log : List DetectionEvent) :
    (detectImageHandler (some m) pngBytes uid uname now true log).tf.allocated =
      [0, 1, 2, 3, 4] ∧
    (detectImageHandler (some m) pngBytes uid uname now false log).tf.allocated =
      [0, 1, 2, 3, 4, 5, 6] ∧
    0 ∈ (detectImageHandler (some m) pngBytes uid uname now true log).tf.allocated := by
  exact ⟨rfl, rfl, by rw [show (detectImageHandler (some m) pngBytes uid uname now true log).tf.allocated = [0, 1, 2, 3, 4] from rfl]; decide⟩

/- ===================== C10 ===================== -/

/-- C10: on an empty probability vector the decision step does not fail:
`maxIdx` is `-1`, the label defaults to "not-uniform", the confidence is
`undefined` (`none`, `data[-1]`), and a detection event carrying that
undefined confidence is still appended, with the response sent normally. -/
theorem empty_probability_vector_still_appends (uid : Nat) (uname : String)
    (now : Nat) (log : List DetectionEvent) :
    maxIdx [] = -1 ∧
    detectImageHandler (some ⟨fun _ => []⟩) pngBytes uid uname now true log =
      ⟨.ok (.jsonResult "not-uniform" none),
        log ++ [⟨uid, uname, "not-uniform", none, false, "upload", now⟩],
        ⟨[0, 1, 2, 3, 4], 7⟩⟩ := by
  exact ⟨rfl, rfl⟩

/- ===================== C3 ===================== -/

/-- C3 (divergence): for an empty byte stream — which `decodeImage` cannot
decode — the route raises `DecodeError` and, having no try/catch, lets it
escape the handler instead of answering with a client-facing "invalid image"
rejection. No detection event is appended and no tensor is allocated. -/
theorem empty_bytes_decode_error_escapes (m : Model) (uid : Nat)
    (uname : String) (now : Nat) (createOk : Bool)
    (log : List DetectionEvent) :
    detectImageHandler (some m) [] uid uname now createOk log =
      ⟨.error .decodeError, log, tfInit⟩ ∧
    isDecodableImage [] = false := by
  exact ⟨rfl, rfl⟩

/- ===================== Helper lemmas: model gating ===================== -/

/-- With the model variable still `null`, any request sequence leaves it
`null` (no route assigns it), leaves the log and student set unchanged, and
answers every classification request with the 500 "Model not ready" response
while every export request still serves the CSV report. -/
theorem runRequests_model_none (rs : List Request) :
    ∀ st : ServerState, st.model = none →
      (runRequests st rs).1.model = none ∧
      (runRequests st rs).1.students = st.students ∧
      (runRequests st rs).1.log = st.log ∧
      (runRequests st rs).2 = rs.map (fun r =>
        match r with
        | .detectImage _ _ _ _ => .ok (.jsonError 500 "Model not ready")
        | .exportReport => .ok (.csvFile (exportCsvRoute st.students st.log))) := by
  induction rs with
  | nil =>
    intro st hm
    exact ⟨hm, rfl, rfl, rfl⟩
  | cons r rs ih =>
    intro st hm
    cases r with
    | detectImage bytes uid uname ck =>
      have hstep : serverStep st (.detectImage bytes uid uname ck) =
          (⟨none, st.students, st.log, st.now + 1⟩,
            .ok (.jsonError 500 "Model not ready")) := by
        simp [serverStep, hm, detectImageHandler]
      have ihr := ih ⟨none, st.students, st.log, st.now + 1⟩ rfl
      simp only [runRequests, hstep, List.map_cons]
      exact ⟨ihr.1, ihr.2.1, ihr.2.2.1, by rw [ihr.2.2.2]⟩
    | exportReport =>
      have hstep : serverStep st .exportReport =
          (st, .ok (.csvFile (exportCsvRoute st.students st.log))) := rfl
      have ihr := ih st hm
      simp only [runRequests, hstep, List.map_cons]
      exact ⟨ihr.1, ihr.2.1, ihr.2.2.1, by rw [ihr.2.2.2]⟩

/- ===================== C4 ===================== -/

/-- C4: while the model variable is `null` — before the load completes and
forever after a failed load, since the catch branch leaves it `null` and
nothing else assigns it — every classification call gets the 500
"Model not ready" response and appends no event; after a successful load the
call reaches inference and answers with the decision on the model's
prediction; and with the model still `null`, any request sequence keeps it
`null` (no spontaneous recovery) while the report export keeps working. -/
theorem model_readiness_gating :
    (∀ bytes uid uname now ck log,
      detectImageHandler none bytes uid uname now ck log =
        ⟨.ok (.jsonError 500 "Model not ready"), log, tfInit⟩) ∧
    (∀ e, modelAfterLoad (.error e) = none) ∧
    (∀ m, modelAfterLoad (.ok m) = some m) ∧
    (∀ (m : Model) bytes uid uname now log, isDecodableImage bytes = true →
      (detectImageHandler (modelAfterLoad (.ok m)) bytes uid uname now true
          log).outcome =
        .ok (.jsonResult
          (if maxIdx (m.predictFn (imgOf bytes)) = 0 then "uniform"
            else "not-uniform")
          (jsIndexGet (m.predictFn (imgOf bytes))
            (maxIdx (m.predictFn (imgOf bytes)))))) ∧
    (∀ st rs, st.model = none →
      (runRequests st rs).1.model = none ∧
      (runRequests st rs).2 = rs.map (fun r =>
        match r with
        | .detectImage _ _ _ _ => .ok (.jsonError 500 "Model not ready")
        | .exportReport => .ok (.csvFile (exportCsvRoute st.students st.log)))) := by
  refine ⟨fun bytes uid uname now ck log => rfl, fun e => rfl, fun m => rfl,
    ?_, ?_⟩
  · intro m bytes uid uname now log h
    simp [detectImageHandler, modelAfterLoad, h, mkDetectionEvent]
  · intro st rs hm
    exact ⟨(runRequests_model_none rs st hm).1,
      (runRequests_model_none rs st hm).2.2.2⟩

/-- Witness for C4: a loaded two-label model serves inference on a valid
image; from a `null` model, a classify-then-export sequence yields the
not-ready rejection followed by a served CSV, and the model stays `null`. -/
theorem model_readiness_gating_witness :
    (detectImageHandler (modelAfterLoad (.ok ⟨fun _ => [1, 0]⟩)) pngBytes 1
        "u" 0 true []).outcome =
      .ok (.jsonResult
        (if maxIdx (Model.predictFn ⟨fun _ => [1, 0]⟩ (imgOf pngBytes)) = 0
          then "uniform" else "not-uniform")
        (jsIndexGet (Model.predictFn ⟨fun _ => [1, 0]⟩ (imgOf pngBytes))
          (maxIdx (Model.predictFn ⟨fun _ => [1, 0]⟩ (imgOf pngBytes))))) ∧
    (runRequests ⟨none, [], [], 0⟩
        [.detectImage pngBytes 1 "u" true, .exportReport]).1.model = none ∧
    (runRequests ⟨none, [], [], 0⟩
        [.detectImage pngBytes 1 "u" true, .exportReport]).2 =
      [Request.detectImage pngBytes 1 "u" true, Request.exportReport].map
        (fun r =>
          match r with
          | .detectImage _ _ _ _ => .ok (.jsonError 500 "Model not ready")
          | .exportReport => .ok (.csvFile (exportCsvRoute [] []))) := by
  refine ⟨?_, ?_, ?_⟩
  · exact model_readiness_gating.2.2.2.1 ⟨fun _ => [1, 0]⟩ pngBytes 1 "u" 0
      [] rfl
  · exact (model_readiness_gating.2.2.2.2 ⟨none, [], [], 0⟩
      [.detectImage pngBytes 1 "u" true, .exportReport] rfl).1
  · exact (model_readiness_gating.2.2.2.2 ⟨none, [], [], 0⟩
      [.detectImage pngBytes 1 "u" true, .exportReport] rfl).2

/- ===================== Helper lemmas: CSV ===================== -/

/-- Reading a quoted-field body that contains no quote character consumes
exactly the body up to the closing quote, provided the remainder does not
immediately continue with a quote. -/
theorem parseQuoted_append (f r : List Char) (hf : ('"' : Char) ∉ f)
    (hr : r.head? ≠ some '"') :
    parseQuoted (f ++ '"' :: r) = some (f, r) := by
  induction f with
  | nil =>
    simp only [List.nil_append]
    cases r with
    | nil => simp [parseQuoted]
    | cons c2 r2 =>
      have hc2 : ¬(c2 = '"') := by
        intro h
        exact hr (by simp [h])
      simp [parseQuoted, hc2]
  | cons c cs ih =>
    have hc : ¬(c = '"') := by
      intro h
      exact hf (by simp [h])
    have hcs : ('"' : Char) ∉ cs := fun h => hf (List.mem_cons_of_mem _ h)
    show parseQuoted (c :: (cs ++ '"' :: r)) = some (c :: cs, r)
    rw [parseQuoted.eq_def]
    simp only []
    rw [if_neg hc, ih hcs]
    rfl

/-- A quoted-joined record is at least as long as its field count. -/
theorem quotedJoin_length_ge : ∀ fs : List (List Char),
    fs.length ≤ (quotedJoin fs).length
  | [] => le_refl 0
  | [f] => by simp [quotedJoin]
  | f :: g :: gs => by
    have ih := quotedJoin_length_ge (g :: gs)
    simp only [quotedJoin, List.length_cons, List.length_append] at ih ⊢
    omega

/-- Round trip: an always-quoted record whose field values contain no quote
character parses back to exactly its field values. -/
theorem parseRowFuel_quotedJoin :
    ∀ (fs : List (List Char)) (fuel : Nat), fs ≠ [] → fs.length ≤ fuel →
      (∀ f ∈ fs, ('"' : Char) ∉ f) →
      parseRowFuel fuel (quotedJoin fs ++ ['\n']) = some (fs.map String.mk) := by
  intro fs
  induction fs with
  | nil => intro fuel h; exact absurd rfl h
  | cons f tl ih =>
    intro fuel _ hlen hq
    have hf : ('"' : Char) ∉ f := hq f (List.mem_cons_self f tl)
    cases fuel with
    | zero => simp at hlen
    | succ n =>
      cases tl with
      | nil =>
        have hshape : quotedJoin [f] ++ ['\n'] = '"' :: (f ++ '"' :: ['\n']) := by
          simp [quotedJoin]
        rw [hshape]
        have hq1 : parseQuoted (f ++ '"' :: ['\n']) = some (f, ['\n']) :=
          parseQuoted_append f ['\n'] hf (by simp)
        simp [parseRowFuel, hq1]
      | cons g gs =>
        have hshape : quotedJoin (f :: g :: gs) ++ ['\n'] =
            '"' :: (f ++ '"' :: (',' :: (quotedJoin (g :: gs) ++ ['\n']))) := by
          simp [quotedJoin]
        rw [hshape]
        have hq1 : parseQuoted (f ++ '"' :: (',' :: (quotedJoin (g :: gs) ++ ['\n']))) =
            some (f, ',' :: (quotedJoin (g :: gs) ++ ['\n'])) :=
          parseQuoted_append f _ hf (by simp)
        have hlen' : (g :: gs).length ≤ n := by
          simp only [List.length_cons] at hlen ⊢
          omega
        have hq' : ∀ x ∈ g :: gs, ('"' : Char) ∉ x :=
          fun x hx => hq x (List.mem_cons_of_mem f hx)
        have ihr := ih n (by simp) hlen' hq'
        simp [parseRowFuel, hq1, ihr]

/-- The characters of one serialized export row, as the quoted join of the
seven field values followed by the newline. -/
theorem csvRowFields_data (s : Student) (status lastAt : String) :
    (csvRowFields s status lastAt).data =
      quotedJoin [s.username.data, s.email.data, s.department.data,
        s.year.data, s.division.data, status.data, lastAt.data] ++ ['\n'] := by
  have h1 : ("\"" : String).data = ['"'] := rfl
  have h2 : ("\",\"" : String).data = ['"', ',', '"'] := rfl
  have h3 : ("\"\n" : String).data = ['"', '\n'] := rfl
  simp [csvRowFields, String.data_append, h1, h2, h3, quotedJoin]

/- ===================== C6 ===================== -/

/-- C6 (counterexample): a field value containing the quote character is
interpolated unescaped, and the serialized row is no longer well-formed —
the reference CSV reader rejects it outright. -/
theorem csv_quote_not_escaped :
    parseCsvRow (csvRowFields ⟨0, "a\"b", "e", "d", "y", "v"⟩ "No Data" "") =
      none ∧
    ('"' : Char) ∈ ("a\"b" : String).data := by
  refine ⟨by decide, by decide⟩

/-- C6 (amended): every field of an export row is unconditionally wrapped in
double quotes, so rows whose field values contain no double-quote character —
values containing the comma delimiter included — serialize well-formed: the
reference CSV reader recovers exactly the seven field values. Field values
containing the double-quote character itself are not escaped (see the
counterexample). -/
theorem csv_row_wellformed_without_quotes (s : Student) (status lastAt : String)
    (h : ∀ f ∈ [s.username, s.email, s.department, s.year, s.division,
      status, lastAt], ('"' : Char) ∉ f.data) :
    parseCsvRow (csvRowFields s status lastAt) =
      some [s.username, s.email, s.department, s.year, s.division, status,
        lastAt] := by
  unfold parseCsvRow
  rw [csvRowFields_data]
  have hlen : (7 : Nat) ≤ (csvRowFields s status lastAt).length + 1 := by
    have hdl : (csvRowFields s status lastAt).length =
        (quotedJoin [s.username.data, s.email.data, s.department.data,
          s.year.data, s.division.data, status.data, lastAt.data] ++
          ['\n']).length := congrArg List.length (csvRowFields_data s status lastAt)
    have hge := quotedJoin_length_ge [s.username.data, s.email.data,
      s.department.data, s.year.data, s.division.data, status.data,
      lastAt.data]
    simp only [List.length_cons, List.length_append, List.length_nil] at hdl hge
    omega
  have hmem : ∀ f ∈ [s.username.data, s.email.data, s.department.data,
      s.year.data, s.division.data, status.data, lastAt.data],
      ('"' : Char) ∉ f := by
    intro f hfm
    simp only [List.mem_cons, List.not_mem_nil, or_false] at hfm
    rcases hfm with rfl | rfl | rfl | rfl | rfl | rfl | rfl
    · exact h s.username (by simp)
    · exact h s.email (by simp)
    · exact h s.department (by simp)
    · exact h s.year (by simp)
    · exact h s.division (by simp)
    · exact h status (by simp)
    · exact h lastAt (by simp)
  rw [parseRowFuel_quotedJoin _ _ (by simp) hlen hmem]
  rfl

/-- Witness for C6 (amended): commas inside field values are harmless — the
serialized row parses back to the same values. -/
theorem csv_row_wellformed_without_quotes_witness :
    parseCsvRow (csvRowFields ⟨0, "a,b", "e,x", "d", "2", "v"⟩ "No Data" "") =
      some ["a,b", "e,x", "d", "2", "v", "No Data", ""] :=
  csv_row_wellformed_without_quotes ⟨0, "a,b", "e,x", "d", "2", "v"⟩
    "No Data" "" (by decide)
